import Mathlib

/-!
Verification of the HTPA32x32d thermopile-array tooling (`tools.py`).

The development shallowly embeds the parts of the source that the verified
properties are about:

* the timestamp matcher `match_timesteps`;
* the mutable sample class `TPA_Sample_from_data` (constructor,
  `align_timesteps`, `test_alignment`);
* the txt / pickle codec value pipeline (`write_np2txt` / `txt2np`);
* the file-manager helpers `_remove_missing_views`, the label filtering in
  `TPA_Dataset_Maker.make`, `_read_labels_file`, `_TPA_get_file_prefix`
  and `TPA_Sample_from_filepaths._read_ID`.

Python floats are modelled as rationals, Python strings as `List Char`,
numpy arrays of frames as `Fin s → Fin s → ℚ` matrices.
-/

set_option autoImplicit false

namespace HTPA

universe u
variable {α : Type u}

/-- Python strings, modelled character by character. -/
abbrev PyStr := List Char

/-! ### String splitting

`remove_extension`, `_TPA_get_file_prefix` and `_read_ID` are built on
`str.split`.  We embed `split(".")` and `split("ID")` directly. -/

/-- `s.split(".")` of Python, on the character list model. -/
def splitOnDot : List Char → List (List Char)
  | [] => [[]]
  | '.' :: rest => [] :: splitOnDot rest
  | c :: rest =>
    match splitOnDot rest with
    | s :: ss => (c :: s) :: ss
    | [] => [[c]]

/-- `s.split("ID")` of Python: split on every (leftmost-first,
non-overlapping) occurrence of the two-character separator `"ID"`. -/
def splitOnID : List Char → List (List Char)
  | [] => [[]]
  | 'I' :: 'D' :: rest => [] :: splitOnID rest
  | c :: rest =>
    match splitOnID rest with
    | s :: ss => (c :: s) :: ss
    | [] => [[c]]

/-- The separator `"ID"`. -/
def idSep : List Char := ['I', 'D']

/-- Rejoin the pieces produced by `splitOnID`, interposing `"ID"`. -/
def joinID : List (List Char) → List Char
  | [] => []
  | [s] => s
  | s :: ss => s ++ idSep ++ joinID ss

/-- `remove_extension` (tools.py:57): `filepath.split(".")[0]`. -/
def remove_extension (fp : List Char) : List Char :=
  (splitOnDot fp).headD []

/-- `_TPA_get_file_prefix` (tools.py:698): the part of the
extension-stripped name before the FIRST `"ID"` occurrence
(`name.split("ID")[0]`).  (The source also strips the directory with
`os.path.basename`; we work on the base name.) -/
def tpaFilePrefixOf (fp : List Char) : List Char :=
  (splitOnID (remove_extension fp)).headD []

/-- `TPA_Sample_from_filepaths._read_ID` (tools.py:649): the part of the
extension-stripped name after the LAST `"ID"` occurrence
(`name.split("ID")[-1]`). -/
def tpaReadID (fp : List Char) : List Char :=
  (splitOnID (remove_extension fp)).getLastD []

/-! ### `numpy.argmin`

`match_timesteps` (tools.py:477) relies on `np.argmin`, which returns the
index of the first occurrence of the minimum.  We embed it as `argminIdx`
below and prove the three facts the claims need: the result is in range,
it attains the minimum, and every strictly earlier entry is strictly
larger (first-occurrence tie-breaking). -/

section Argmin

variable {β : Type u} [LinearOrder β]

/-- Minimum of a list, `none` on the empty list. -/
def listMin : List β → Option β
  | [] => none
  | x :: xs =>
    match listMin xs with
    | none => some x
    | some m => some (min x m)

/-- `np.argmin`: index of the first occurrence of the minimum
(0 on the empty list, on which numpy raises instead). -/
def argminIdx : List β → Nat
  | [] => 0
  | x :: xs =>
    match listMin xs with
    | none => 0
    | some m => if x ≤ m then 0 else argminIdx xs + 1

end Argmin

/-! ### The timestamp matcher (`match_timesteps`, tools.py:477)

```python
ts_list = [np.array(ts).reshape(-1, 1) for ts in timestamps_lists]
min_len_idx = np.array([len(ts) for ts in ts_list]).argmin()
min_len_ts = ts_list[min_len_idx]
indices_list = [None] * len(ts_list)
for idx, ts in enumerate(ts_list):
    if (idx == min_len_idx):
        indices_list[idx] = list(range(len(min_len_ts)))
    else:
        indices_list[idx] = list(cdist(min_len_ts, ts).argmin(axis=-1))
return indices_list
```

`cdist` of two column vectors is the matrix of absolute differences, so
row `j` of `cdist(min_len_ts, ts).argmin(axis=-1)` is the index of the
first timestamp of `ts` closest to reference timestamp `j`. -/

/-- Index of the reference sequence: first sequence of minimal length. -/
def minLenIdx (tss : List (List ℚ)) : Nat :=
  argminIdx (tss.map List.length)

/-- One row of `cdist(min_len_ts, ts).argmin(axis=-1)`: the index of the
first element of `ts` at minimal absolute distance from `t`. -/
def nearestIdx (t : ℚ) (ts : List ℚ) : Nat :=
  argminIdx (ts.map fun s => |t - s|)

/-- `match_timesteps` (tools.py:477). -/
def match_timesteps (tss : List (List ℚ)) : List (List Nat) :=
  let m := minLenIdx tss
  let ref := tss.getD m []
  (List.range tss.length).map fun i =>
    if i = m then List.range ref.length
    else ref.map fun t => nearestIdx t (tss.getD i [])

/-! ### The mutable sample (`TPA_Sample_from_data`, tools.py:663)

A data-backed sample holds, per view, a frame array and a timestamp list.
Frames are never inspected by the alignment logic, so the frame type is a
parameter.  `align_timesteps` (tools.py:685) re-indexes every view by the
matcher output (numpy fancy indexing `array[indexes]` is `List.map` over
the index list) and, when `reset_T0` is set, subtracts the minimal first
timestamp from every view.

The source loop runs `for i in range(len(self.ids))`; on well-formed
samples (`len(ids) = len(arrays) = len(timestamps)`, as built by
`TPA_Preparer.prepare`) this coincides with the pointwise `zipWith`
below, and the claim theorems carry that well-formedness hypothesis. -/

structure TPASample (F : Type u) where
  ids : List PyStr
  arrays : List (List F)
  timestamps : List (List ℚ)

/-- `np.min` over a Python list (0 on the empty list, on which numpy
raises instead). -/
def npMin : List ℚ → ℚ
  | [] => 0
  | x :: xs => xs.foldl min x

/-- `TPA_Sample_from_data.align_timesteps` (tools.py:685). -/
def align_timesteps {F : Type u} [Inhabited F] (s : TPASample F)
    (reset_T0 : Bool) : TPASample F :=
  let idxs := match_timesteps s.timestamps
  let arrays2 := List.zipWith
    (fun arr idx => idx.map fun k => arr.getD k default) s.arrays idxs
  let ts2 := List.zipWith
    (fun ts idx => idx.map fun k => ts.getD k 0) s.timestamps idxs
  if reset_T0 then
    let sample_T0_min := npMin (ts2.map fun ts => ts.headD 0)
    ⟨s.ids, arrays2, ts2.map fun ts => ts.map fun x => x - sample_T0_min⟩
  else
    ⟨s.ids, arrays2, ts2⟩

/-- `_TPA_Sample.test_alignment` (tools.py:625):
`all(l == lengths[0] for l in lengths)`.  (On a zero-view sample the
generator is empty and Python's `all` returns `True` without evaluating
`lengths[0]`.) -/
def test_alignment {F : Type u} (s : TPASample F) : Bool :=
  s.timestamps.all fun ts =>
    ts.length == (s.timestamps.headD []).length

/-! ### Aliasing model for the constructor (`TPA_Sample_from_data.__init__`,
tools.py:668)

```python
self.ids = ids.copy()
self.arrays = arrays.copy()
self.timestamps = timestamps.copy()
```

To reason about aliasing we model a Python list of mutable objects as a
list of addresses into a store (`σ : List α`, address = index).
`list.copy()` produces a fresh outer list holding the SAME addresses. -/

/-- A Python list object: an ordered list of references to element
objects. -/
structure PyListRef where
  addrs : List Nat
deriving DecidableEq

/-- `list.copy()`: a new list object with the same element references. -/
def listCopy (l : PyListRef) : PyListRef :=
  ⟨l.addrs⟩

/-- The reference lists stored by a `TPA_Sample_from_data` instance. -/
structure TPASampleRefs where
  ids : PyListRef
  arrays : PyListRef
  timestamps : PyListRef
  filepaths : Option PyListRef
deriving DecidableEq

/-- `TPA_Sample_from_data.__init__` (tools.py:668): shallow-copies the
three argument lists; the optional output filepaths are stored as-is. -/
def TPA_Sample_from_data_init (arrays timestamps ids : PyListRef)
    (output_filepaths : Option PyListRef) : TPASampleRefs :=
  ⟨listCopy ids, listCopy arrays, listCopy timestamps, output_filepaths⟩

/-- Dereference every element of a Python list in store `σ`. -/
def readRefs {γ : Type u} (σ : List γ) (d : γ) (l : PyListRef) : List γ :=
  l.addrs.map fun a => σ.getD a d

/-! ### File-manager helpers (`_TPA_File_Manager`, tools.py:703)

`_remove_missing_views` (tools.py:750):

```python
counter = collections.Counter(prefixes)
view_number = len(self.view_IDs)
for prefix in counter.keys():
    prefix_view_number = counter[prefix]
    if (prefix_view_number < view_number):
        prefixes2filter.remove(prefix)
```

`Counter(prefixes).keys()` iterates keys in first-occurrence order, and
only prefixes that occur in `prefixes` (count ≥ 1) are keys.
`list.remove` drops the first occurrence of the value and raises
`ValueError` when the value is absent; we model the raise as `none`. -/

/-- First-occurrence deduplication: `Counter(l).keys()` /
`list(dict.fromkeys(l))` iteration order. -/
def pyDedupAux [DecidableEq α] (seen : List α) : List α → List α
  | [] => []
  | x :: xs =>
    if x ∈ seen then pyDedupAux seen xs
    else x :: pyDedupAux (x :: seen) xs

/-- Keys of `Counter(l)` in iteration order. -/
def pyDedup [DecidableEq α] (l : List α) : List α :=
  pyDedupAux [] l

/-- Python `list.remove`: drop the first occurrence, `none` (ValueError)
when absent. -/
def pyRemove [DecidableEq α] : List α → α → Option (List α)
  | [], _ => none
  | x :: xs, a => if x = a then some xs else (pyRemove xs a).map (x :: ·)

/-- `_TPA_File_Manager._remove_missing_views` (tools.py:750).
`view_number` is `len(self.view_IDs)`. -/
def remove_missing_views [DecidableEq α] (view_number : Nat)
    (prefixes prefixes2filter : List α) : Option (List α) :=
  (pyDedup prefixes).foldlM
    (fun acc p =>
      if prefixes.count p < view_number then pyRemove acc p else some acc)
    prefixes2filter

/-! ### Labels (`TPA_Dataset_Maker`, tools.py:842)

A JSON label value is an integer or a string.  `make()` (tools.py:883)
filters the candidate prefixes with three consecutive loops, each of the
form

```python
for prefix in prefixes2make:
    if bad(prefix):
        prefixes2make.remove(prefix)
```

i.e. the list is mutated while being iterated: after a removal at
position `i` the iterator moves on to position `i+1` of the shortened
list, so the element directly after a removed one is never examined.
`skipFilterM` reproduces exactly this semantics (for duplicate-free
candidate lists, where `remove` drops the element under the iterator).
Looking up a missing key (possible in the second and third loop for an
element skipped by the first) raises `KeyError`, modelled as `none`. -/

/-- A JSON label value. -/
inductive PyVal where
  | int (n : Int)
  | str (s : PyStr)
deriving DecidableEq

/-- Python truthiness of a label value (`bool(v)`). -/
def labelTruthy : PyVal → Bool
  | .int n => n ≠ 0
  | .str s => s ≠ []

/-- `type(v) == int`. -/
def labelIsInt : PyVal → Bool
  | .int _ => true
  | .str _ => false

/-- First-match association lookup (`dict.__getitem__` /
`key in dict`). -/
def lookupA {V : Type u} (l : List (PyStr × V)) (k : PyStr) : Option V :=
  match l with
  | [] => none
  | (k2, v) :: rest => if k2 = k then some v else lookupA rest k

/-- `TPA_Dataset_Maker._read_labels_file` (tools.py:961): the loop
`for key in data.keys(): ... data[new_key] = data.pop(old_key)` renames
every key containing `"ID"` to the part before the first `"ID"`
(`key.split("ID")[0]`) — but it mutates the dict's key set while
iterating its keys view, which CPython (>= 3.8) rejects with
`RuntimeError: dictionary keys changed during iteration` as soon as any
key contains `"ID"` (on every version the collision case, where the
normalized key already exists, also raises).  Exceptions are modelled
as `none` throughout this file, so the call succeeds exactly when no
key contains `"ID"` — and then the loop is a no-op. -/
def read_labels_file (data : List (PyStr × PyVal)) :
    Option (List (PyStr × PyVal)) :=
  if data.any (fun kv => (splitOnID kv.1).length > 1) then none
  else some data

/-- One `for prefix in list: if bad(prefix): list.remove(prefix)` loop
over a duplicate-free list, with the iterator-skip semantics described
above; `bad` returning `none` models an exception inside the loop body. -/
def skipFilterM {γ : Type u} (bad : γ → Option Bool) :
    List γ → Option (List γ)
  | [] => some []
  | x :: xs =>
    match bad x with
    | none => none
    | some true =>
      match xs with
      | [] => some []
      | y :: ys => (skipFilterM bad ys).map (y :: ·)
    | some false => (skipFilterM bad xs).map (x :: ·)

/-- The three label-validation loops of `TPA_Dataset_Maker.make`
(tools.py:901-915): drop prefixes with no label entry, then prefixes
with a falsy label, then prefixes whose label is not an `int`. -/
def filterLabelled (labels : List (PyStr × PyVal))
    (prefixes2make : List PyStr) : Option (List PyStr) := do
  let l1 ← skipFilterM (fun p => some (lookupA labels p).isNone)
    prefixes2make
  let l2 ← skipFilterM
    (fun p => (lookupA labels p).map fun v => ! labelTruthy v) l1
  skipFilterM
    (fun p => (lookupA labels p).map fun v => ! labelIsInt v) l2

/-! ### `TPA_Dataset_Maker.make` (tools.py:883)

After configuration, `make()` globs the processed directory, computes the
flat prefix list and `prefixes2make = list(set(prefixes))` (an arbitrary
ordering of the distinct prefixes — we take it as a parameter), filters
out incomplete and unlabelled samples, and either fails without writing
anything or copies all files and writes `tpa.nfo` plus `labels.json`. -/

/-- `os.path.join dir name` for a single component. -/
def pathJoin (dir name : PyStr) : PyStr :=
  dir ++ '/' :: name

/-- The observable effects of one `make()` call. -/
structure MakeOutcome where
  success : Bool
  copied : List (PyStr × PyStr)
  nfoWritten : Bool
  labelsCopied : Bool
deriving DecidableEq

/-- `TPA_Dataset_Maker.make` from the glob results onwards.
`prefixes` is the flat list of prefixes of the globbed files,
`prefixes2make0` the (arbitrarily ordered) `list(set(prefixes))`,
`labels` the raw content of the labels file. -/
def tpaDatasetMake (view_IDs : List PyStr) (tpas_extension : PyStr)
    (processed_input_dir dataset_destination_dir : PyStr)
    (prefixes prefixes2make0 : List PyStr)
    (labels : List (PyStr × PyVal)) : Option MakeOutcome := do
  let afterViews ← remove_missing_views view_IDs.length prefixes
    prefixes2make0
  let normLabels ← read_labels_file labels
  let prefixes2make ← filterLabelled normLabels afterViews
  let fps2copy := prefixes2make.map fun p =>
    view_IDs.map fun id =>
      (pathJoin processed_input_dir (p ++ idSep ++ id ++ '.' :: tpas_extension),
       pathJoin dataset_destination_dir (p ++ idSep ++ id ++ '.' :: tpas_extension))
  let prefixes2make_number0 := prefixes2make0.length
  let prefixes2make_number := (pyDedup prefixes2make).length
  if prefixes2make_number0 - prefixes2make_number = prefixes2make_number0 then
    pure ⟨false, [], false, false⟩
  else
    pure ⟨true, fps2copy.flatten, true, true⟩

/-! ### The txt / pickle codecs (`write_np2txt` tools.py:167, `txt2np`
tools.py:127, `write_np2pickle` / `pickle2np` tools.py:191/210)

`write_np2txt` renders each value with
`("%02.2f" % val).replace(".", "")[:4]` — two decimal places, the dot
removed, truncated to the first FOUR characters — and `txt2np` parses the
token back with `int(T)` and multiplies by `1e-2`.  On the rational
model, `"%02.2f" % v` rounds `100*v` to the nearest integer `n` (ties to
even); the dot-free rendering is the sign, the decimal digits of
`|n| / 100` (at least the single digit `0`), then two decimal digits of
`|n| % 100`.  Truncation to 4 characters therefore keeps `n` intact
exactly when `0 ≤ n ≤ 9999` or `-999 ≤ n < 0`, and otherwise drops the
trailing digits (the sign survives, being the first character).

Per frame, `write_np2txt` emits `np.rot90(array, k=1)` flattened in
Fortran (column-major) order; `txt2np` reads `array_size**2` tokens per
line, reshapes in Fortran order and applies `np.rot90(..., k=-1)`.
Frames are `Fin s → Fin s → ℚ`; timestamps round-trip exactly through
`"{}".format(t)` / `float(t)` and are modelled as the identity. -/

/-- Nearest integer with ties to even: the rounding of `%.2f` on the
rational model. -/
def rhe (q : ℚ) : Int :=
  let f := ⌊q⌋
  let r := q - f
  if r < 1 / 2 then f
  else if 1 / 2 < r then f + 1
  else if f % 2 = 0 then f else f + 1

/-- Number of decimal digits (1 for 0), via structural fuel. -/
def digitCountAux : Nat → Nat → Nat
  | 0, _ => 1
  | fuel + 1, n => if n < 10 then 1 else digitCountAux fuel (n / 10) + 1

/-- Number of decimal digits of `n` (1 for 0). -/
def digitCount (n : Nat) : Nat :=
  digitCountAux n n

/-- The `[:4]` truncation of the dot-free `%02.2f` rendering of the
integer `n` of hundredths, re-parsed with `int`. -/
def truncTok (n : Int) : Int :=
  if 0 ≤ n then
    let m := n.toNat
    if m < 10000 then n
    else ((m / 10 ^ (digitCount m - 4) : Nat) : Int)
  else
    let m := (-n).toNat
    if m < 1000 then n
    else -((m / 10 ^ (digitCount m - 3) : Nat) : Int)

/-- The integer token `write_np2txt` emits for value `v`:
`int(("%02.2f" % v).replace(".", "")[:4])`. -/
def np2txtTok (v : ℚ) : Int :=
  truncTok (rhe (100 * v))

/-- `int(T) * 1e-2` of `txt2np` composed with the token above: the value
read back for a written value `v`. -/
def txtRoundVal (v : ℚ) : ℚ :=
  (np2txtTok v : ℚ) / 100

/-- A square numpy frame. -/
def Mat (s : Nat) := Fin s → Fin s → ℚ

/-- `np.rot90(M, k=1)` (counter-clockwise): entry `(i, j)` comes from
`M[j, s-1-i]`. -/
def rot90ccw {s : Nat} (M : Mat s) : Mat s :=
  fun i j => M j i.rev

/-- `np.rot90(M, k=-1)` (clockwise): entry `(i, j)` comes from
`M[s-1-j, i]`. -/
def rot90cw {s : Nat} (M : Mat s) : Mat s :=
  fun i j => M j.rev i

/-- `M.flatten("F")`: column-major flattening (first index varies
fastest), as the concatenation of the columns. -/
def flattenF {s : Nat} (M : Mat s) : List ℚ :=
  (List.ofFn fun j : Fin s => List.ofFn fun i : Fin s => M i j).flatten

/-- `np.reshape([s, s], order="F")` of a flat value list. -/
def reshapeF (s : Nat) (v : List ℚ) : Mat s :=
  fun i j => v.getD (i.val + j.val * s) 0

/-- `M.flatten()` (C order, row-major), used by `write_np2csv`. -/
def flattenC {s : Nat} (M : Mat s) : List ℚ :=
  (List.ofFn fun i : Fin s => List.ofFn fun j : Fin s => M i j).flatten

/-- `reshape_flattened_frames` (tools.py:430) on a square frame:
row-major reshape with `height = width = isqrt(elements)`. -/
def reshapeC (s : Nat) (v : List ℚ) : Mat s :=
  fun i j => v.getD (i.val * s + j.val) 0

/-- The token line `write_np2txt` writes for one frame. -/
def np2txtFrameToks {s : Nat} (M : Mat s) : List Int :=
  (flattenF (rot90ccw M)).map np2txtTok

/-- The frame `txt2np` reconstructs from one token line. -/
def txt2npFrame (s : Nat) (toks : List Int) : Mat s :=
  rot90cw (reshapeF s (toks.map fun n : Int => ((n : ℚ) / 100)))

/-- `write_np2txt` then `txt2np` on a whole sample: one line per
`zip(frames, timestamps)` pair, each read back as a frame and the parsed
timestamp. -/
def txtRoundtrip {s : Nat} (frames : List (Mat s)) (timestamps : List ℚ) :
    List (Mat s) × List ℚ :=
  ((frames.zip timestamps).map fun ft => txt2npFrame s (np2txtFrameToks ft.1),
   (frames.zip timestamps).map Prod.snd)

/-- `write_np2pickle` (tools.py:191): `pickle.dump((array, timestamps))`
serializes the pair exactly. -/
def write_np2pickle {s : Nat} (frames : List (Mat s))
    (timestamps : List ℚ) : List (Mat s) × List ℚ :=
  (frames, timestamps)

/-- `pickle2np` (tools.py:210): `pickle.load` restores the pair
exactly. -/
def pickle2np {s : Nat} (file : List (Mat s) × List ℚ) :
    List (Mat s) × List ℚ :=
  file

/-- `write_np2csv` (tools.py:230) then `csv2np` (tools.py:267) on the
value level: each row holds the timestamp, the PTAT filler and the
row-major flattened frame; reading drops the time and PTAT columns and
reshapes with `height = isqrt(s*s) = s`.  The float32 text round-trip is
exact on the real-number model. -/
def csvRoundtrip {s : Nat} (frames : List (Mat s)) (timestamps : List ℚ) :
    List (Mat s) × List ℚ :=
  ((frames.zip timestamps).map fun ft => reshapeC s (flattenC ft.1),
   (frames.zip timestamps).map Prod.snd)

/-- All 24 orderings of a four-element candidate list. -/
def orders4 (a b c d : PyStr) : List (List PyStr) :=
  [[a, b, c, d], [a, b, d, c], [a, c, b, d], [a, c, d, b],
   [a, d, b, c], [a, d, c, b], [b, a, c, d], [b, a, d, c],
   [b, c, a, d], [b, c, d, a], [b, d, a, c], [b, d, c, a],
   [c, a, b, d], [c, a, d, b], [c, b, a, d], [c, b, d, a],
   [c, d, a, b], [c, d, b, a], [d, a, b, c], [d, a, c, b],
   [d, b, a, c], [d, b, c, a], [d, c, a, b], [d, c, b, a]]

/-! ### Observation shorthands used in the claim statements -/

/-- Length of the reference (shortest) sequence. -/
def refLen (tss : List (List ℚ)) : Nat :=
  (tss.getD (minLenIdx tss) []).length

/-- Reference timestamp `j`. -/
def refAt (tss : List (List ℚ)) (j : Nat) : ℚ :=
  (tss.getD (minLenIdx tss) []).getD j 0

/-- Timestamp `k` of input sequence `i`. -/
def tsAt (tss : List (List ℚ)) (i k : Nat) : ℚ :=
  (tss.getD i []).getD k 0

/-- Entry `j` of the matcher's index list for input sequence `i`. -/
def matchedIndex (tss : List (List ℚ)) (i j : Nat) : Nat :=
  ((match_timesteps tss).getD i []).getD j 0

/-- Unfolding of `splitOnID` at a cons cell that does not start with `"ID"`. -/
theorem splitOnID_cons (c : Char) (rest : List Char)
    (h : ∀ r, c = 'I' → rest = 'D' :: r → False) :
    splitOnID (c :: rest) =
      match splitOnID rest with
      | s :: ss => (c :: s) :: ss
      | [] => [[c]] := by
  rw [splitOnID.eq_def]
  split
  · simp_all
  · rename_i r heq
    obtain ⟨hc, hr⟩ := List.cons.inj heq
    exact (h r hc hr).elim
  · rename_i c2 rest2 h2 heq
    obtain ⟨hc, hr⟩ := List.cons.inj heq
    subst hc
    subst hr
    rfl

theorem splitOnID_ne_nil (l : List Char) : splitOnID l ≠ [] := by
  induction l using splitOnID.induct with
  | case1 => simp [splitOnID]
  | case2 rest ih => simp [splitOnID]
  | case3 c rest h s ss heq ih =>
    rw [splitOnID_cons c rest h, heq]
    simp
  | case4 c rest h heq ih =>
    rw [splitOnID_cons c rest h, heq]
    simp

/-- The pieces of `splitOnID`, interleaved with `"ID"`, rebuild the input:
`split("ID")[0]` is exactly the text before the first `"ID"` and
`split("ID")[-1]` exactly the text after the last one. -/
theorem joinID_splitOnID (l : List Char) : joinID (splitOnID l) = l := by
  induction l using splitOnID.induct with
  | case1 => simp [splitOnID, joinID]
  | case2 rest ih =>
    rw [splitOnID]
    rcases hs : splitOnID rest with _ | ⟨s, ss⟩
    · exact absurd hs (splitOnID_ne_nil rest)
    · rw [hs] at ih
      simp only [joinID, idSep]
      simpa [idSep] using ih
  | case3 c rest h s ss heq ih =>
    rw [splitOnID_cons c rest h, heq]
    rw [heq] at ih
    cases ss with
    | nil => simpa [joinID] using ih
    | cons t ts => simpa [joinID, idSep] using ih
  | case4 c rest h heq ih =>
    rw [splitOnID_cons c rest h, heq]
    rw [heq] at ih
    simpa [joinID] using ih

section ArgminLemmas

variable {β : Type u} [LinearOrder β]

theorem listMin_cons_none {x : β} {xs : List β} (h : listMin xs = none) :
    listMin (x :: xs) = some x := by
  rw [listMin, h]

theorem listMin_cons_some {x m : β} {xs : List β} (h : listMin xs = some m) :
    listMin (x :: xs) = some (min x m) := by
  rw [listMin, h]

theorem argminIdx_cons_none {x : β} {xs : List β} (h : listMin xs = none) :
    argminIdx (x :: xs) = 0 := by
  rw [argminIdx, h]

theorem argminIdx_cons_le {x m : β} {xs : List β} (h : listMin xs = some m)
    (hle : x ≤ m) : argminIdx (x :: xs) = 0 := by
  rw [argminIdx, h]
  simp [hle]

theorem argminIdx_cons_gt {x m : β} {xs : List β} (h : listMin xs = some m)
    (hgt : m < x) : argminIdx (x :: xs) = argminIdx xs + 1 := by
  rw [argminIdx, h]
  simp [not_le.mpr hgt]

theorem listMin_eq_none {l : List β} (h : listMin l = none) : l = [] := by
  cases l with
  | nil => rfl
  | cons x xs =>
    rcases hm : listMin xs with _ | m
    · rw [listMin_cons_none hm] at h
      exact absurd h (by simp)
    · rw [listMin_cons_some hm] at h
      exact absurd h (by simp)

theorem listMin_le {l : List β} {m : β} (h : listMin l = some m) :
    ∀ y ∈ l, m ≤ y := by
  induction l generalizing m with
  | nil => simp [listMin] at h
  | cons x xs ih =>
    rcases hm : listMin xs with _ | m2
    · obtain rfl := listMin_eq_none hm
      rw [listMin_cons_none hm] at h
      obtain rfl := Option.some.inj h
      simp
    · rw [listMin_cons_some hm] at h
      obtain rfl := Option.some.inj h
      intro y hy
      rcases List.mem_cons.mp hy with rfl | hy2
      · exact min_le_left _ _
      · exact le_trans (min_le_right _ _) (ih hm y hy2)

theorem argminIdx_lt {l : List β} (h : l ≠ []) : argminIdx l < l.length := by
  induction l with
  | nil => exact absurd rfl h
  | cons x xs ih =>
    rcases hm : listMin xs with _ | m
    · rw [argminIdx_cons_none hm]
      simp
    · rcases le_or_lt x m with hle | hgt
      · rw [argminIdx_cons_le hm hle]
        simp
      · rw [argminIdx_cons_gt hm hgt]
        have hxs : xs ≠ [] := by
          intro h2
          rw [h2] at hm
          simp [listMin] at hm
        simpa [List.length_cons, Nat.succ_lt_succ_iff] using ih hxs

theorem argminIdx_getD {l : List β} {m : β} (d : β) (h : listMin l = some m) :
    l.getD (argminIdx l) d = m := by
  induction l generalizing m with
  | nil => simp [listMin] at h
  | cons x xs ih =>
    rcases hm : listMin xs with _ | m2
    · obtain rfl := listMin_eq_none hm
      rw [listMin_cons_none hm] at h
      obtain rfl := Option.some.inj h
      rw [argminIdx_cons_none hm]
      simp
    · rw [listMin_cons_some hm] at h
      obtain rfl := Option.some.inj h
      rcases le_or_lt x m2 with hle | hgt
      · rw [argminIdx_cons_le hm hle]
        simpa using (min_eq_left hle).symm
      · rw [argminIdx_cons_gt hm hgt, min_eq_right (le_of_lt hgt)]
        simpa using ih hm

/-- The entry at `argminIdx` is a lower bound for every entry. -/
theorem argminIdx_min {l : List β} (d : β) (h : l ≠ []) :
    ∀ k < l.length, l.getD (argminIdx l) d ≤ l.getD k d := by
  intro k hk
  rcases hm : listMin l with _ | m
  · exact absurd (listMin_eq_none hm) h
  · rw [argminIdx_getD d hm, List.getD_eq_getElem l d hk]
    exact listMin_le hm _ (List.getElem_mem hk)

/-- First-occurrence tie-breaking: entries strictly before `argminIdx`
are strictly larger than the minimum. -/
theorem argminIdx_first {l : List β} (d : β) :
    ∀ k < argminIdx l, l.getD (argminIdx l) d < l.getD k d := by
  induction l with
  | nil => simp [argminIdx]
  | cons x xs ih =>
    rcases hm : listMin xs with _ | m
    · rw [argminIdx_cons_none hm]
      simp
    · rcases le_or_lt x m with hle | hgt
      · rw [argminIdx_cons_le hm hle]
        simp
      · rw [argminIdx_cons_gt hm hgt]
        intro k hk
        cases k with
        | zero =>
          simp only [List.getD_cons_succ, List.getD_cons_zero]
          calc xs.getD (argminIdx xs) d = m := argminIdx_getD d hm
          _ < x := hgt
        | succ j =>
          simp only [List.getD_cons_succ]
          exact ih j (Nat.lt_of_succ_lt_succ hk)

end ArgminLemmas

theorem match_timesteps_length (tss : List (List ℚ)) :
    (match_timesteps tss).length = tss.length := by
  simp [match_timesteps]

theorem match_timesteps_getD {tss : List (List ℚ)} {i : Nat}
    (hi : i < tss.length) :
    (match_timesteps tss).getD i [] =
      if i = minLenIdx tss then List.range (tss.getD (minLenIdx tss) []).length
      else (tss.getD (minLenIdx tss) []).map
        (fun t => nearestIdx t (tss.getD i [])) := by
  have hlen : i < ((List.range tss.length).map
      (fun i => if i = minLenIdx tss
        then List.range (tss.getD (minLenIdx tss) []).length
        else (tss.getD (minLenIdx tss) []).map
          (fun t => nearestIdx t (tss.getD i [])))).length := by
    simpa using hi
  rw [match_timesteps, List.getD_eq_getElem _ _ hlen]
  simp

/-- The reference index is in range when the input is nonempty. -/
theorem minLenIdx_lt {tss : List (List ℚ)} (h : tss ≠ []) :
    minLenIdx tss < tss.length := by
  have := argminIdx_lt (l := tss.map List.length) (by simpa using h)
  simpa [minLenIdx] using this

/-- The reference sequence has minimal length. -/
theorem minLenIdx_min {tss : List (List ℚ)} (h : tss ≠ []) :
    ∀ i < tss.length,
      (tss.getD (minLenIdx tss) []).length ≤ (tss.getD i []).length := by
  intro i hi
  have hm := minLenIdx_lt h
  have h1 : (tss.map List.length).getD (minLenIdx tss) 0 =
      (tss.getD (minLenIdx tss) []).length := by
    rw [List.getD_eq_getElem _ _ (by simpa using hm),
      List.getD_eq_getElem _ _ hm]
    simp
  have h2 : (tss.map List.length).getD i 0 = (tss.getD i []).length := by
    rw [List.getD_eq_getElem _ _ (by simpa using hi),
      List.getD_eq_getElem _ _ hi]
    simp
  have := argminIdx_min (l := tss.map List.length) 0 (by simpa using h)
    i (by simpa using hi)
  rw [show argminIdx (tss.map List.length) = minLenIdx tss from rfl,
    h1, h2] at this
  exact this

/-- Every index list produced by the matcher has the reference length. -/
theorem match_timesteps_row_length {tss : List (List ℚ)} {i : Nat}
    (hi : i < tss.length) :
    ((match_timesteps tss).getD i []).length =
      (tss.getD (minLenIdx tss) []).length := by
  rw [match_timesteps_getD hi]
  split <;> simp

theorem getD_map_abs (t : ℚ) {ts : List ℚ} {k : Nat} (hk : k < ts.length) :
    (ts.map fun s => |t - s|).getD k 0 = |t - ts.getD k 0| := by
  rw [List.getD_eq_getElem _ _ (by simpa using hk),
    List.getD_eq_getElem _ _ hk]
  simp

theorem nearestIdx_lt {t : ℚ} {ts : List ℚ} (h : ts ≠ []) :
    nearestIdx t ts < ts.length := by
  have := argminIdx_lt (l := ts.map fun s => |t - s|) (by simpa using h)
  simpa [nearestIdx] using this

theorem nearestIdx_min (t : ℚ) {ts : List ℚ} (h : ts ≠ []) :
    ∀ k < ts.length,
      |t - ts.getD (nearestIdx t ts) 0| ≤ |t - ts.getD k 0| := by
  intro k hk
  have hn := nearestIdx_lt (t := t) h
  have := argminIdx_min (l := ts.map fun s => |t - s|) 0
    (by simpa using h) k (by simpa using hk)
  rw [show argminIdx (ts.map fun s => |t - s|) = nearestIdx t ts from rfl,
    getD_map_abs t hn, getD_map_abs t hk] at this
  exact this

theorem nearestIdx_first (t : ℚ) {ts : List ℚ} (h : ts ≠ []) :
    ∀ k < nearestIdx t ts,
      |t - ts.getD (nearestIdx t ts) 0| < |t - ts.getD k 0| := by
  intro k hk
  have hn := nearestIdx_lt (t := t) h
  have hk2 : k < ts.length := lt_trans hk hn
  have := argminIdx_first (l := ts.map fun s => |t - s|) 0 k
    (by simpa [nearestIdx] using hk)
  rw [show argminIdx (ts.map fun s => |t - s|) = nearestIdx t ts from rfl,
    getD_map_abs t hn, getD_map_abs t hk2] at this
  exact this

/-- Members of a list are nonempty when all members are. -/
theorem getD_ne_nil {tss : List (List ℚ)} {i : Nat}
    (hne : ∀ ts ∈ tss, ts ≠ []) (hi : i < tss.length) :
    tss.getD i [] ≠ [] := by
  rw [List.getD_eq_getElem _ _ hi]
  exact hne _ (List.getElem_mem hi)

theorem getD_map_nearestIdx {ref : List ℚ} (ts : List ℚ) {j : Nat}
    (hj : j < ref.length) :
    (ref.map fun t => nearestIdx t ts).getD j 0 =
      nearestIdx (ref.getD j 0) ts := by
  rw [List.getD_eq_getElem _ _ (by simpa using hj),
    List.getD_eq_getElem _ _ hj]
  simp

theorem getD_range {n j : Nat} (hj : j < n) :
    (List.range n).getD j 0 = j := by
  rw [List.getD_eq_getElem _ _ (by simpa using hj)]
  simp

/-- C1: on `N ≥ 2` nonempty sequences, the matcher returns one index
list per input, the (first) shortest input is the reference and keeps
identity indices `0..len-1`, every index list has the reference length,
and for every non-reference sequence the index at reference position `j`
is the position of the timestamp with minimal absolute difference to
reference timestamp `j`, ties broken by the first occurrence. -/
theorem match_timesteps_spec (tss : List (List ℚ))
    (hN : 2 ≤ tss.length) (hne : ∀ ts ∈ tss, ts ≠ []) :
    (match_timesteps tss).length = tss.length
    ∧ (∀ i < tss.length, refLen tss ≤ (tss.getD i []).length)
    ∧ (match_timesteps tss).getD (minLenIdx tss) [] =
        List.range (refLen tss)
    ∧ (∀ i < tss.length,
        ((match_timesteps tss).getD i []).length = refLen tss)
    ∧ (∀ i < tss.length, i ≠ minLenIdx tss → ∀ j < refLen tss,
        matchedIndex tss i j < (tss.getD i []).length
        ∧ (∀ k < (tss.getD i []).length,
            |refAt tss j - tsAt tss i (matchedIndex tss i j)| ≤
              |refAt tss j - tsAt tss i k|)
        ∧ (∀ k < matchedIndex tss i j,
            |refAt tss j - tsAt tss i (matchedIndex tss i j)| <
              |refAt tss j - tsAt tss i k|)) := by
  have hnil : tss ≠ [] := by
    intro h
    rw [h] at hN
    simp at hN
  have hm := minLenIdx_lt hnil
  refine ⟨match_timesteps_length tss, minLenIdx_min hnil, ?_, ?_, ?_⟩
  · rw [match_timesteps_getD hm]
    simp [refLen]
  · intro i hi
    exact match_timesteps_row_length hi
  · intro i hi hne_i j hj
    have hts : tss.getD i [] ≠ [] := getD_ne_nil hne hi
    have hrow : (match_timesteps tss).getD i [] =
        (tss.getD (minLenIdx tss) []).map
          (fun t => nearestIdx t (tss.getD i [])) := by
      rw [match_timesteps_getD hi, if_neg hne_i]
    have hidx : matchedIndex tss i j =
        nearestIdx (refAt tss j) (tss.getD i []) := by
      rw [matchedIndex, hrow, getD_map_nearestIdx _ (by exact hj)]
      rfl
    refine ⟨?_, ?_, ?_⟩
    · rw [hidx]
      exact nearestIdx_lt hts
    · intro k hk
      have := nearestIdx_min (refAt tss j) hts k hk
      rw [hidx]
      exact this
    · intro k hk
      rw [hidx] at hk ⊢
      exact nearestIdx_first (refAt tss j) hts k hk

/-- Witness for C1 at a concrete input: `[[1, 2, 3], [1.1, 1.9]]`. -/
theorem match_timesteps_spec_witness :
    (2 ≤ ([[1, 2, 3], [11/10, 19/10]] : List (List ℚ)).length
      ∧ ∀ ts ∈ ([[1, 2, 3], [11/10, 19/10]] : List (List ℚ)), ts ≠ [])
    ∧ ((match_timesteps [[1, 2, 3], [11/10, 19/10]]).length =
        ([[1, 2, 3], [11/10, 19/10]] : List (List ℚ)).length
      ∧ (∀ i < ([[1, 2, 3], [11/10, 19/10]] : List (List ℚ)).length,
          refLen [[1, 2, 3], [11/10, 19/10]] ≤
            (([[1, 2, 3], [11/10, 19/10]] : List (List ℚ)).getD i []).length)
      ∧ (match_timesteps [[1, 2, 3], [11/10, 19/10]]).getD
          (minLenIdx [[1, 2, 3], [11/10, 19/10]]) [] =
          List.range (refLen [[1, 2, 3], [11/10, 19/10]])
      ∧ (∀ i < ([[1, 2, 3], [11/10, 19/10]] : List (List ℚ)).length,
          ((match_timesteps [[1, 2, 3], [11/10, 19/10]]).getD i []).length =
            refLen [[1, 2, 3], [11/10, 19/10]])
      ∧ (∀ i < ([[1, 2, 3], [11/10, 19/10]] : List (List ℚ)).length,
          i ≠ minLenIdx [[1, 2, 3], [11/10, 19/10]] →
          ∀ j < refLen [[1, 2, 3], [11/10, 19/10]],
          matchedIndex [[1, 2, 3], [11/10, 19/10]] i j <
            (([[1, 2, 3], [11/10, 19/10]] : List (List ℚ)).getD i []).length
          ∧ (∀ k < (([[1, 2, 3], [11/10, 19/10]] : List (List ℚ)).getD i []).length,
              |refAt [[1, 2, 3], [11/10, 19/10]] j -
                  tsAt [[1, 2, 3], [11/10, 19/10]] i
                    (matchedIndex [[1, 2, 3], [11/10, 19/10]] i j)| ≤
                |refAt [[1, 2, 3], [11/10, 19/10]] j -
                  tsAt [[1, 2, 3], [11/10, 19/10]] i k|)
          ∧ (∀ k < matchedIndex [[1, 2, 3], [11/10, 19/10]] i j,
              |refAt [[1, 2, 3], [11/10, 19/10]] j -
                  tsAt [[1, 2, 3], [11/10, 19/10]] i
                    (matchedIndex [[1, 2, 3], [11/10, 19/10]] i j)| <
                |refAt [[1, 2, 3], [11/10, 19/10]] j -
                  tsAt [[1, 2, 3], [11/10, 19/10]] i k|))) :=
  ⟨⟨by decide, by decide⟩,
    match_timesteps_spec [[1, 2, 3], [11/10, 19/10]] (by decide) (by decide)⟩

/-- C9: every index the matcher returns is a legal index into its own
input sequence, so re-indexing the original sequences never goes out of
bounds. -/
theorem match_timesteps_indices_in_range (tss : List (List ℚ))
    (hne : ∀ ts ∈ tss, ts ≠ []) :
    ∀ i < tss.length, ∀ j < ((match_timesteps tss).getD i []).length,
      ((match_timesteps tss).getD i []).getD j 0 <
        (tss.getD i []).length := by
  intro i hi j hj
  have hnil : tss ≠ [] := by
    intro h
    rw [h] at hi
    simp at hi
  have hm := minLenIdx_lt hnil
  rw [match_timesteps_getD hi] at hj ⊢
  by_cases him : i = minLenIdx tss
  · rw [if_pos him] at hj ⊢
    rw [List.length_range] at hj
    rw [getD_range hj]
    rw [him]
    exact hj
  · rw [if_neg him] at hj ⊢
    rw [List.length_map] at hj
    rw [getD_map_nearestIdx _ hj]
    exact nearestIdx_lt (getD_ne_nil hne hi)

/-- Witness for C9 at the concrete input `[[1, 2, 3], [1.1, 1.9]]`. -/
theorem match_timesteps_indices_in_range_witness :
    (∀ ts ∈ ([[1, 2, 3], [11/10, 19/10]] : List (List ℚ)), ts ≠ [])
    ∧ (∀ i < ([[1, 2, 3], [11/10, 19/10]] : List (List ℚ)).length,
        ∀ j < ((match_timesteps [[1, 2, 3], [11/10, 19/10]]).getD i []).length,
        ((match_timesteps [[1, 2, 3], [11/10, 19/10]]).getD i []).getD j 0 <
          (([[1, 2, 3], [11/10, 19/10]] : List (List ℚ)).getD i []).length) :=
  ⟨by decide,
    match_timesteps_indices_in_range [[1, 2, 3], [11/10, 19/10]] (by decide)⟩

/-! ### Lemmas about `align_timesteps` -/

section AlignLemmas

variable {F : Type u} [Inhabited F]

/-- The raw (pre-shift) aligned timestamps of `align_timesteps`. -/
theorem align_timesteps_false_timestamps (s : TPASample F) :
    (align_timesteps s false).timestamps =
      List.zipWith (fun ts idx => idx.map fun k => ts.getD k 0)
        s.timestamps (match_timesteps s.timestamps) := by
  simp [align_timesteps]

/-- `reset_T0 = True` shifts the aligned timestamps by the minimal first
timestamp of the aligned sample. -/
theorem align_timesteps_true_timestamps (s : TPASample F) :
    (align_timesteps s true).timestamps =
      (align_timesteps s false).timestamps.map fun ts =>
        ts.map fun x =>
          x - npMin ((align_timesteps s false).timestamps.map
            fun ts2 => ts2.headD 0) := by
  simp [align_timesteps]

theorem align_timesteps_arrays (s : TPASample F) (b : Bool) :
    (align_timesteps s b).arrays =
      List.zipWith (fun arr idx => idx.map fun k => arr.getD k default)
        s.arrays (match_timesteps s.timestamps) := by
  cases b <;> simp [align_timesteps]

theorem align_timesteps_timestamps_length (s : TPASample F) (b : Bool) :
    (align_timesteps s b).timestamps.length = s.timestamps.length := by
  cases b
  · rw [align_timesteps_false_timestamps]
    simp [match_timesteps_length]
  · rw [align_timesteps_true_timestamps, List.length_map,
      align_timesteps_false_timestamps]
    simp [match_timesteps_length]

/-- Every aligned timestamp list has the reference length. -/
theorem align_timesteps_row_length (s : TPASample F) (b : Bool)
    {i : Nat} (hi : i < s.timestamps.length) :
    ((align_timesteps s b).timestamps.getD i []).length =
      refLen s.timestamps := by
  have hmlen := match_timesteps_length s.timestamps
  have hz : (List.zipWith (fun ts idx => idx.map fun k => ts.getD k 0)
      s.timestamps (match_timesteps s.timestamps)).length =
      s.timestamps.length := by
    simp [hmlen]
  have hbase : ∀ j < s.timestamps.length,
      ((align_timesteps s false).timestamps.getD j []).length =
        refLen s.timestamps := by
    intro j hj
    rw [align_timesteps_false_timestamps,
      List.getD_eq_getElem _ _ (by rw [hz]; exact hj),
      List.getElem_zipWith, List.length_map,
      ← List.getD_eq_getElem (match_timesteps s.timestamps) [] (by rw [hmlen]; exact hj)]
    exact match_timesteps_row_length hj
  cases b
  · exact hbase i hi
  · rw [align_timesteps_true_timestamps]
    have hlen2 : i < ((align_timesteps s false).timestamps).length := by
      rw [align_timesteps_timestamps_length]
      exact hi
    rw [List.getD_eq_getElem _ _ (by simpa using hlen2),
      List.getElem_map, List.length_map,
      ← List.getD_eq_getElem ((align_timesteps s false).timestamps) [] hlen2]
    exact hbase i hi

theorem headD_eq_getD {γ : Type u} (l : List γ) (d : γ) :
    l.headD d = l.getD 0 d := by
  cases l <;> rfl

theorem headD_map_sub {ts : List ℚ} (c : ℚ) (h : ts ≠ []) :
    (ts.map fun x => x - c).headD 0 = ts.headD 0 - c := by
  cases ts with
  | nil => exact absurd rfl h
  | cons x xs => rfl

theorem npMin_map_sub {l : List ℚ} (c : ℚ) (h : l ≠ []) :
    npMin (l.map fun x => x - c) = npMin l - c := by
  cases l with
  | nil => exact absurd rfl h
  | cons x xs =>
    rw [List.map_cons, npMin, npMin]
    clear h
    induction xs generalizing x with
    | nil => rfl
    | cons y ys ih =>
      rw [List.map_cons, List.foldl_cons, List.foldl_cons,
        min_sub_sub_right]
      exact ih (min x y)

end AlignLemmas

theorem refLen_pos {tss : List (List ℚ)} (h0 : tss ≠ [])
    (hne : ∀ ts ∈ tss, ts ≠ []) : 0 < refLen tss :=
  List.length_pos.mpr (getD_ne_nil hne (minLenIdx_lt h0))

section AlignClaims

variable {F : Type u} [Inhabited F]

theorem align_timesteps_array_row_length (s : TPASample F) (b : Bool)
    (harr : s.arrays.length = s.timestamps.length)
    {i : Nat} (hi : i < s.timestamps.length) :
    ((align_timesteps s b).arrays.getD i []).length = refLen s.timestamps := by
  have hmlen := match_timesteps_length s.timestamps
  have hz : (List.zipWith (fun arr idx => idx.map fun k => arr.getD k default)
      s.arrays (match_timesteps s.timestamps)).length = s.timestamps.length := by
    simp [hmlen, harr]
  rw [align_timesteps_arrays,
    List.getD_eq_getElem _ _ (by rw [hz]; exact hi),
    List.getElem_zipWith, List.length_map,
    ← List.getD_eq_getElem (match_timesteps s.timestamps) []
      (by rw [hmlen]; exact hi)]
  exact match_timesteps_row_length hi

theorem align_rows_ne_nil (s : TPASample F) (b : Bool)
    (h0 : s.timestamps ≠ []) (hne : ∀ ts ∈ s.timestamps, ts ≠ []) :
    ∀ ts ∈ (align_timesteps s b).timestamps, ts ≠ [] := by
  intro ts hts
  obtain ⟨i, hil, hie⟩ := List.mem_iff_getElem.mp hts
  have hi : i < s.timestamps.length := by
    rw [← align_timesteps_timestamps_length s b]
    exact hil
  have := align_timesteps_row_length s b hi
  rw [List.getD_eq_getElem _ _ hil, hie] at this
  intro hcon
  rw [hcon] at this
  exact absurd this.symm (Nat.ne_of_gt (refLen_pos h0 hne))

/-- C2: on a well-formed data-backed sample with nonempty timestamp
lists, `align_timesteps` (either value of `reset_T0`) makes
`test_alignment` true, and the per-view array lengths agree with the
per-view timestamp lengths. -/
theorem align_timesteps_then_test_alignment (s : TPASample F) (b : Bool)
    (hids : s.ids.length = s.timestamps.length)
    (harr : s.arrays.length = s.timestamps.length)
    (h0 : s.timestamps ≠ [])
    (hne : ∀ ts ∈ s.timestamps, ts ≠ []) :
    test_alignment (align_timesteps s b) = true
    ∧ (align_timesteps s b).arrays.map List.length =
        (align_timesteps s b).timestamps.map List.length := by
  have hlen := align_timesteps_timestamps_length s b
  have h0len : 0 < s.timestamps.length := List.length_pos.mpr h0
  have hhead : ((align_timesteps s b).timestamps.headD []).length =
      refLen s.timestamps := by
    rw [headD_eq_getD _ [], align_timesteps_row_length s b h0len]
  constructor
  · rw [test_alignment, List.all_eq_true]
    intro ts hts
    obtain ⟨i, hil, hie⟩ := List.mem_iff_getElem.mp hts
    have hi : i < s.timestamps.length := by rw [← hlen]; exact hil
    have hrow := align_timesteps_row_length s b hi
    rw [List.getD_eq_getElem _ _ hil, hie] at hrow
    rw [beq_iff_eq, hrow, hhead]
  · apply List.ext_getElem
    · rw [List.length_map, List.length_map, hlen,
        align_timesteps_arrays]
      simp [match_timesteps_length, harr]
    · intro i h1 h2
      have hi : i < s.timestamps.length := by
        rw [List.length_map, hlen] at h2
        exact h2
      have hiA : i < (align_timesteps s b).arrays.length := by
        rw [List.length_map] at h1
        exact h1
      have hiT : i < (align_timesteps s b).timestamps.length := by
        rw [List.length_map] at h2
        exact h2
      rw [List.getElem_map, List.getElem_map,
        ← List.getD_eq_getElem ((align_timesteps s b).arrays) [] hiA,
        ← List.getD_eq_getElem ((align_timesteps s b).timestamps) [] hiT,
        align_timesteps_array_row_length s b harr hi,
        align_timesteps_row_length s b hi]

/-- Witness for C2: a two-view sample with timestamp lists of lengths 2
and 3. -/
theorem align_timesteps_then_test_alignment_witness :
    (([['0'], ['1']] : List PyStr).length =
        ([[1, 2], [11/10, 21/10, 31/10]] : List (List ℚ)).length
      ∧ ([[5, 6], [7, 8, 9]] : List (List ℚ)).length =
        ([[1, 2], [11/10, 21/10, 31/10]] : List (List ℚ)).length
      ∧ ([[1, 2], [11/10, 21/10, 31/10]] : List (List ℚ)) ≠ []
      ∧ ∀ ts ∈ ([[1, 2], [11/10, 21/10, 31/10]] : List (List ℚ)), ts ≠ [])
    ∧ (test_alignment (align_timesteps
        (⟨[['0'], ['1']], [[5, 6], [7, 8, 9]],
          [[1, 2], [11/10, 21/10, 31/10]]⟩ : TPASample ℚ) true) = true
      ∧ (align_timesteps
          (⟨[['0'], ['1']], [[5, 6], [7, 8, 9]],
            [[1, 2], [11/10, 21/10, 31/10]]⟩ : TPASample ℚ) true).arrays.map
            List.length =
        (align_timesteps
          (⟨[['0'], ['1']], [[5, 6], [7, 8, 9]],
            [[1, 2], [11/10, 21/10, 31/10]]⟩ : TPASample ℚ) true).timestamps.map
            List.length) :=
  ⟨⟨by decide, by decide, by decide, by decide⟩,
    align_timesteps_then_test_alignment
      (⟨[['0'], ['1']], [[5, 6], [7, 8, 9]],
        [[1, 2], [11/10, 21/10, 31/10]]⟩ : TPASample ℚ) true
      (by decide) (by decide) (by decide) (by decide)⟩

/-- C3: with `reset_T0 = True`, the minimal first timestamp over all
views is exactly 0 after the call, and the timestamps are those of the
plain alignment shifted by one common constant (relative offsets between
views are preserved). -/
theorem align_timesteps_reset_T0 (s : TPASample F)
    (hids : s.ids.length = s.timestamps.length)
    (harr : s.arrays.length = s.timestamps.length)
    (h0 : s.timestamps ≠ [])
    (hne : ∀ ts ∈ s.timestamps, ts ≠ []) :
    npMin ((align_timesteps s true).timestamps.map fun ts => ts.headD 0) = 0
    ∧ ∃ c : ℚ, (align_timesteps s true).timestamps =
        (align_timesteps s false).timestamps.map fun ts =>
          ts.map fun x => x - c := by
  have hA0 : (align_timesteps s false).timestamps ≠ [] := by
    intro h
    have := align_timesteps_timestamps_length s false
    rw [h] at this
    exact h0 (List.length_eq_zero.mp this.symm)
  have hArows := align_rows_ne_nil s false h0 hne
  constructor
  · rw [align_timesteps_true_timestamps]
    rw [List.map_map]
    have hcongr : ∀ ts ∈ (align_timesteps s false).timestamps,
        ((fun ts2 : List ℚ => ts2.headD 0) ∘ fun ts2 : List ℚ =>
          ts2.map fun x => x - npMin
            ((align_timesteps s false).timestamps.map
              fun ts3 => ts3.headD 0)) ts =
        ((fun x => x - npMin
            ((align_timesteps s false).timestamps.map
              fun ts3 => ts3.headD 0)) ∘ fun ts2 : List ℚ =>
          ts2.headD 0) ts := by
      intro ts hts
      simp only [Function.comp_apply]
      exact headD_map_sub _ (hArows ts hts)
    rw [List.map_congr_left hcongr, ← List.map_map]
    rw [npMin_map_sub _ (by
      intro h
      exact hA0 (List.map_eq_nil_iff.mp h))]
    exact sub_self _
  · exact ⟨_, align_timesteps_true_timestamps s⟩

/-- Witness for C3: the C2 witness sample again. -/
theorem align_timesteps_reset_T0_witness :
    (([['0'], ['1']] : List PyStr).length =
        ([[1, 2], [11/10, 21/10, 31/10]] : List (List ℚ)).length
      ∧ ([[5, 6], [7, 8, 9]] : List (List ℚ)).length =
        ([[1, 2], [11/10, 21/10, 31/10]] : List (List ℚ)).length
      ∧ ([[1, 2], [11/10, 21/10, 31/10]] : List (List ℚ)) ≠ []
      ∧ ∀ ts ∈ ([[1, 2], [11/10, 21/10, 31/10]] : List (List ℚ)), ts ≠ [])
    ∧ (npMin ((align_timesteps
        (⟨[['0'], ['1']], [[5, 6], [7, 8, 9]],
          [[1, 2], [11/10, 21/10, 31/10]]⟩ : TPASample ℚ) true).timestamps.map
          fun ts => ts.headD 0) = 0
      ∧ ∃ c : ℚ, (align_timesteps
          (⟨[['0'], ['1']], [[5, 6], [7, 8, 9]],
            [[1, 2], [11/10, 21/10, 31/10]]⟩ : TPASample ℚ) true).timestamps =
        (align_timesteps
          (⟨[['0'], ['1']], [[5, 6], [7, 8, 9]],
            [[1, 2], [11/10, 21/10, 31/10]]⟩ : TPASample ℚ) false).timestamps.map
          fun ts => ts.map fun x => x - c) :=
  ⟨⟨by decide, by decide, by decide, by decide⟩,
    align_timesteps_reset_T0
      (⟨[['0'], ['1']], [[5, 6], [7, 8, 9]],
        [[1, 2], [11/10, 21/10, 31/10]]⟩ : TPASample ℚ)
      (by decide) (by decide) (by decide) (by decide)⟩

end AlignClaims

/-! ### C7: the constructor copies shallowly, not deeply -/

/-- Counterexample to C7: the constructor's `timestamps.copy()` keeps
the element references, so mutating the timestamp-list object at address
0 (store update `σ.set 0 [5]`) changes the sample's stored timestamps.
A deep copy would leave `readRefs` unchanged. -/
theorem TPA_Sample_from_data_init_aliases_elements :
    readRefs (([[0]] : List (List ℚ)).set 0 [5]) []
        (TPA_Sample_from_data_init ⟨[]⟩ ⟨[0]⟩ ⟨[]⟩ none).timestamps ≠
      readRefs ([[0]] : List (List ℚ)) []
        (TPA_Sample_from_data_init ⟨[]⟩ ⟨[0]⟩ ⟨[]⟩ none).timestamps := by
  decide

/-- C7 (amended): `TPA_Sample_from_data.__init__` copies the OUTER
lists only.  The sample's reference lists are value-copies of the
argument reference lists (so later structural mutation of the caller's
own list objects cannot reach them), but they hold the same element
addresses, hence under every store the sample dereferences to exactly
what the caller's lists dereference to — element-object mutation is
visible to the sample. -/
theorem TPA_Sample_from_data_init_shallow_copy
    (arrays timestamps ids : PyListRef) (out : Option PyListRef) :
    (TPA_Sample_from_data_init arrays timestamps ids out).timestamps.addrs =
        timestamps.addrs
    ∧ (TPA_Sample_from_data_init arrays timestamps ids out).arrays.addrs =
        arrays.addrs
    ∧ (TPA_Sample_from_data_init arrays timestamps ids out).ids.addrs =
        ids.addrs
    ∧ ∀ (σ : List (List ℚ)) (d : List ℚ),
        readRefs σ d (TPA_Sample_from_data_init arrays timestamps ids
            out).timestamps =
          readRefs σ d timestamps :=
  ⟨rfl, rfl, rfl, fun _ _ => rfl⟩

/-! ### C10: prefix and view-id extraction -/

/-- C10: `_TPA_get_file_prefix` takes the text before the first `"ID"`,
`_read_ID` the text after the last `"ID"`; when the extension-stripped
name contains `"ID"` exactly once (`split("ID")` has exactly two
pieces), `prefix + "ID" + view_id` rebuilds the name; in general (e.g.
when the prefix part itself contains `"ID"`) it does not. -/
theorem tpa_prefix_id_reconstruction :
    (∀ fp : List Char, (splitOnID (remove_extension fp)).length = 2 →
      tpaFilePrefixOf fp ++ idSep ++ tpaReadID fp = remove_extension fp)
    ∧ ¬ (∀ fp : List Char,
      tpaFilePrefixOf fp ++ idSep ++ tpaReadID fp = remove_extension fp) := by
  constructor
  · intro fp h2
    obtain ⟨a, b, hab⟩ := List.length_eq_two.mp h2
    have hjoin := joinID_splitOnID (remove_extension fp)
    rw [hab] at hjoin
    rw [tpaFilePrefixOf, tpaReadID, hab]
    simpa [joinID] using hjoin
  · intro hall
    have := hall ['a', 'I', 'D', 'b', 'I', 'D', 'c', '.', 't', 'x', 't']
    exact absurd this (by decide)

/-- C4 (failing input): `make()` removes candidates from
`prefixes2make` while iterating over it.  With labels
`{"a": "x", "b": "y"}` (both non-integer, no key contains `"ID"`, so
`_read_labels_file` succeeds and is the identity) and candidate order
`[a, b]`, the third loop removes `a` and the iterator then skips `b`,
so `b` survives all label filtering even though its label is not an
integer — contradicting both the claim and the source's own log message
("Ignoring prefix ... because the label is incorrect"). -/
theorem dataset_label_filter_skips_invalid :
    read_labels_file [(['a'], .str ['x']), (['b'], .str ['y'])] =
      some [(['a'], .str ['x']), (['b'], .str ['y'])]
    ∧ filterLabelled [(['a'], .str ['x']), (['b'], .str ['y'])]
        [['a'], ['b']] = some [['b']]
    ∧ labelIsInt (.str ['y']) = false := by
  decide

/-- The spec's concrete label-filtering example: the raw labels
`{"p1": 2, "p2": "", "p3": "x", "p4ID0": 5}` contain the legacy key
`"p4ID0"`, so on CPython ≥ 3.8 `_read_labels_file` itself raises
(modelled as `none`) before any filtering.  On the already-normalized
labels the three loops ARE insensitive to the (unspecified)
`list(set(...))` candidate order: for every ordering of
`{p1, p2, p3, p4}` exactly `{p1, p4}` survive (`p2` is the only removal
of the emptiness loop and `p3` the only removal of the type loop, so
neither is ever skipped). -/
theorem dataset_label_filter_example_all_orders :
    read_labels_file
        [(['p', '1'], .int 2), (['p', '2'], .str []),
         (['p', '3'], .str ['x']), (['p', '4', 'I', 'D', '0'], .int 5)] =
      none
    ∧ ∀ cands ∈ orders4 ['p', '1'] ['p', '2'] ['p', '3'] ['p', '4'],
      filterLabelled
          [(['p', '1'], .int 2), (['p', '2'], .str []),
           (['p', '3'], .str ['x']), (['p', '4'], .int 5)]
          cands =
        some (cands.filter
          fun p => p == ['p', '1'] || p == ['p', '4']) := by
  decide

/-! ### C5: `_remove_missing_views` and absent candidates -/

/-- Counterexample to C5 as stated: candidate `b` occurs 0 < 3 times in
the file list, yet it is kept — `Counter(prefixes)` has no key `b`, so
the loop never considers it. -/
theorem remove_missing_views_keeps_absent :
    remove_missing_views 3 [['a'], ['a'], ['a']] [['a'], ['b']] =
      some [['a'], ['b']]
    ∧ List.count ['b'] [['a'], ['a'], ['a']] < 3 := by
  decide

theorem mem_pyDedupAux [DecidableEq α] {l : List α} :
    ∀ {seen : List α} {a : α},
      a ∈ pyDedupAux seen l ↔ a ∈ l ∧ a ∉ seen := by
  induction l with
  | nil => simp [pyDedupAux]
  | cons x xs ih =>
    intro seen a
    rw [pyDedupAux]
    by_cases hx : x ∈ seen
    · rw [if_pos hx, ih]
      constructor
      · rintro ⟨h1, h2⟩
        exact ⟨List.mem_cons_of_mem x h1, h2⟩
      · rintro ⟨h1, h2⟩
        by_cases hax : a = x
        · subst hax
          exact absurd hx h2
        · exact ⟨(List.mem_cons.mp h1).resolve_left hax, h2⟩
    · rw [if_neg hx]
      constructor
      · intro h
        rcases List.mem_cons.mp h with rfl | h2
        · exact ⟨List.mem_cons_self a xs, hx⟩
        · obtain ⟨h3, h4⟩ := ih.mp h2
          have h5 : a ∉ seen := fun hc => h4 (List.mem_cons_of_mem x hc)
          exact ⟨List.mem_cons_of_mem x h3, h5⟩
      · rintro ⟨h1, h2⟩
        by_cases hax : a = x
        · subst hax
          exact List.mem_cons_self a _
        · have h3 : a ∈ xs := (List.mem_cons.mp h1).resolve_left hax
          have h4 : a ∉ x :: seen := by
            intro hc
            rcases List.mem_cons.mp hc with h5 | h5
            · exact hax h5
            · exact h2 h5
          exact List.mem_cons_of_mem x (ih.mpr ⟨h3, h4⟩)

theorem mem_pyDedup [DecidableEq α] {l : List α} {a : α} :
    a ∈ pyDedup l ↔ a ∈ l := by
  rw [pyDedup, mem_pyDedupAux]
  simp

theorem pyDedupAux_nodup [DecidableEq α] (l : List α) :
    ∀ seen : List α, (pyDedupAux seen l).Nodup := by
  induction l with
  | nil => intro seen; simp [pyDedupAux]
  | cons x xs ih =>
    intro seen
    rw [pyDedupAux]
    by_cases hx : x ∈ seen
    · rw [if_pos hx]
      exact ih seen
    · rw [if_neg hx]
      refine List.nodup_cons.mpr ⟨fun hc => ?_, ih (x :: seen)⟩
      exact (mem_pyDedupAux.mp hc).2 (List.mem_cons_self x seen)

theorem pyDedup_nodup [DecidableEq α] (l : List α) : (pyDedup l).Nodup :=
  pyDedupAux_nodup l []

theorem pyRemove_nodup [DecidableEq α] {l : List α} {a : α}
    (hnd : l.Nodup) (ha : a ∈ l) :
    pyRemove l a = some (l.filter fun x => x != a) := by
  induction l with
  | nil => simp at ha
  | cons x xs ih =>
    rw [pyRemove]
    by_cases hx : x = a
    · rw [if_pos hx]
      subst hx
      have hx0 : x ∉ xs := (List.nodup_cons.mp hnd).1
      have hnot : ∀ y ∈ xs, (y != x) = true := by
        intro y hy
        simp only [bne_iff_ne, ne_eq]
        intro hc
        subst hc
        exact hx0 hy
      rw [List.filter_cons_of_neg (by simp), List.filter_eq_self.mpr hnot]
    · rw [if_neg hx]
      have ha2 : a ∈ xs := by
        rcases List.mem_cons.mp ha with rfl | h2
        · exact absurd rfl hx
        · exact h2
      rw [ih (List.nodup_cons.mp hnd).2 ha2,
        List.filter_cons_of_pos (by simpa using hx)]
      rfl

/-- The `counter.keys()` loop of `_remove_missing_views` removes exactly
the bad keys that occur in the candidate list, provided every bad key is
a candidate (otherwise `list.remove` raises). -/
theorem remove_loop_eq_filter [DecidableEq α] (Bad : α → Prop)
    [DecidablePred Bad] :
    ∀ (L acc : List α), acc.Nodup → L.Nodup →
      (∀ p ∈ L, Bad p → p ∈ acc) →
      List.foldlM
          (fun acc2 p => if Bad p then pyRemove acc2 p else some acc2)
          acc L
        = some (acc.filter fun a => ! (L.contains a && decide (Bad a))) := by
  intro L
  induction L with
  | nil =>
    intro acc hacc hL hcov
    simp
  | cons p L ih =>
    intro acc hacc hL hcov
    rw [List.foldlM_cons]
    by_cases hb : Bad p
    · rw [if_pos hb, pyRemove_nodup hacc (hcov p (List.mem_cons_self p L) hb)]
      have hstep := ih (acc.filter fun x => x != p)
        (hacc.filter _) (List.nodup_cons.mp hL).2
        (fun q hq hbq => by
          have hqa := hcov q (List.mem_cons_of_mem p hq) hbq
          have hqp : q ≠ p := by
            intro hc
            subst hc
            exact (List.nodup_cons.mp hL).1 hq
          rw [List.mem_filter]
          exact ⟨hqa, by simpa using hqp⟩)
      rw [show (some (acc.filter fun x => x != p) >>= fun acc2 =>
          List.foldlM (fun acc3 q =>
            if Bad q then pyRemove acc3 q else some acc3) acc2 L) =
          List.foldlM (fun acc3 q =>
            if Bad q then pyRemove acc3 q else some acc3)
            (acc.filter fun x => x != p) L from rfl, hstep]
      rw [List.filter_filter]
      refine congrArg some (List.filter_congr ?_)
      intro a ha
      by_cases hap : a = p
      · subst hap
        simp [decide_eq_true hb]
      · have h1 : (a != p) = true := by simpa using hap
        simp [h1, List.contains_cons, decide_eq_false hap]
    · rw [if_neg hb]
      rw [show (some acc >>= fun acc2 =>
          List.foldlM (fun acc3 q =>
            if Bad q then pyRemove acc3 q else some acc3) acc2 L) =
          List.foldlM (fun acc3 q =>
            if Bad q then pyRemove acc3 q else some acc3) acc L from rfl]
      rw [ih acc hacc (List.nodup_cons.mp hL).2
        (fun q hq hbq => hcov q (List.mem_cons_of_mem p hq) hbq)]
      refine congrArg some (List.filter_congr ?_)
      intro a ha
      by_cases hap : a = p
      · subst hap
        simp [decide_eq_false hb]
      · simp [List.contains_cons, decide_eq_false hap]

/-- C5 (amended): when the candidate set is duplicate-free and every
prefix with a deficient occurrence count is a candidate (as at both call
sites, where the candidates are exactly `list(set(prefixes))`),
`_remove_missing_views` removes exactly the candidates that occur in the
file list with fewer occurrences than there are views; candidates with
no occurrence at all (count 0) are kept, not dropped. -/
theorem remove_missing_views_amended [DecidableEq α] (view_number : Nat)
    (prefixes cands : List α) (hnd : cands.Nodup)
    (hcov : ∀ p ∈ prefixes, prefixes.count p < view_number → p ∈ cands) :
    remove_missing_views view_number prefixes cands =
      some (cands.filter fun p =>
        ! (prefixes.contains p && decide (prefixes.count p < view_number))) := by
  rw [remove_missing_views,
    remove_loop_eq_filter (fun p => prefixes.count p < view_number)
      (pyDedup prefixes) cands hnd (pyDedup_nodup prefixes)
      (fun p hp hbp => hcov p (mem_pyDedup.mp hp) hbp)]
  refine congrArg some (List.filter_congr ?_)
  intro a ha
  have hcont : (pyDedup prefixes).contains a = prefixes.contains a := by
    simp [mem_pyDedup]
  rw [hcont]

/-- Witness for the amended C5 at the spec's own example: counts
`{a: 3, b: 2}` with 3 declared views reduce candidates `{a, b}` to
`{a}`. -/
theorem remove_missing_views_amended_witness :
    (([['a'], ['b']] : List PyStr).Nodup
      ∧ ∀ p ∈ ([['a'], ['a'], ['a'], ['b'], ['b']] : List PyStr),
          List.count p [['a'], ['a'], ['a'], ['b'], ['b']] < 3 →
            p ∈ ([['a'], ['b']] : List PyStr))
    ∧ remove_missing_views 3 [['a'], ['a'], ['a'], ['b'], ['b']]
        [['a'], ['b']] =
      some (([['a'], ['b']] : List PyStr).filter fun p =>
        ! (([['a'], ['a'], ['a'], ['b'], ['b']] : List PyStr).contains p &&
          decide (List.count p [['a'], ['a'], ['a'], ['b'], ['b']] < 3))) :=
  ⟨⟨by decide, by decide⟩,
    remove_missing_views_amended 3 [['a'], ['a'], ['a'], ['b'], ['b']]
      [['a'], ['b']] (by decide) (by decide)⟩

/-! ### C6: `make()` fails without writing when everything is filtered -/

/-- C6: whenever `_read_labels_file` returns (it raises on any legacy
`"ID"` key, see `read_labels_file`; an exception propagates before the
filters run, so the claim's "eliminated by the filters" hypothesis
requires a successful read) and the completeness and label filters then
eliminate every candidate prefix (including the no-candidates case),
`make()` reports failure and performs no copies, writes no `tpa.nfo`
and no labels file. -/
theorem dataset_make_all_filtered_fails (view_IDs : List PyStr)
    (tpas_extension processed_input_dir dataset_destination_dir : PyStr)
    (prefixes prefixes2make0 : List PyStr)
    (labels normLabels : List (PyStr × PyVal)) (afterViews : List PyStr)
    (h1 : remove_missing_views view_IDs.length prefixes prefixes2make0 =
      some afterViews)
    (h0 : read_labels_file labels = some normLabels)
    (h2 : filterLabelled normLabels afterViews = some []) :
    tpaDatasetMake view_IDs tpas_extension processed_input_dir
        dataset_destination_dir prefixes prefixes2make0 labels =
      some ⟨false, [], false, false⟩ := by
  rw [tpaDatasetMake]
  rw [h1]
  simp only [Option.bind_eq_bind, Option.some_bind]
  rw [h0]
  simp only [Option.some_bind]
  rw [h2]
  simp [pyDedup, pyDedupAux]

/-! ### Lemmas for the codec round-trip (C8) -/

/-- Any nearest rounding is within half a unit. -/
theorem abs_rhe_sub (q : ℚ) : |(rhe q : ℚ) - q| ≤ 1 / 2 := by
  have h0 : ((⌊q⌋ : ℤ) : ℚ) ≤ q := Int.floor_le q
  have h1 : q < (⌊q⌋ : ℚ) + 1 := Int.lt_floor_add_one q
  simp only [rhe]
  split_ifs with hc1 hc2 hc3 <;> rw [abs_sub_le_iff] <;> constructor <;>
    push_cast <;> linarith

/-- Within the 4-character budget the truncation is the identity. -/
theorem truncTok_of_range {n : Int} (h1 : -999 ≤ n) (h2 : n ≤ 9999) :
    truncTok n = n := by
  simp only [truncTok]
  split_ifs with hc1 hc2 hc3 <;> first | rfl | omega

/-- A written-and-reread txt value is within the declared 0.01
precision, whenever the rounded hundredths fit the 4-character field. -/
theorem txtRoundVal_close {v : ℚ} (h1 : -999 ≤ rhe (100 * v))
    (h2 : rhe (100 * v) ≤ 9999) :
    |txtRoundVal v - v| ≤ 1 / 100 := by
  rw [txtRoundVal, np2txtTok, truncTok_of_range h1 h2]
  have habs := abs_rhe_sub (100 * v)
  have hrw : (rhe (100 * v) : ℚ) / 100 - v = ((rhe (100 * v) : ℚ) - 100 * v) / 100 := by
    ring
  rw [hrw, abs_div]
  rw [show |(100 : ℚ)| = 100 from by norm_num]
  linarith

/-- `rhe` is the identity on integers. -/
theorem rhe_intCast (n : ℤ) : rhe ((n : ℤ) : ℚ) = n := by
  rw [rhe]
  simp only [Int.floor_intCast]
  rw [if_pos (by norm_num)]

/-- Indexing a concatenation of equal-length blocks. -/
theorem flatten_getD_block {s : Nat} {L : List (List ℚ)}
    (hall : ∀ l ∈ L, l.length = s) :
    ∀ {b r : Nat}, b < L.length → r < s →
      L.flatten.getD (r + b * s) 0 = (L.getD b []).getD r 0 := by
  induction L with
  | nil =>
    intro b r hb hr
    simp at hb
  | cons l0 rest ih =>
    intro b r hb hr
    have hl0 : l0.length = s := hall l0 (List.mem_cons_self l0 rest)
    cases b with
    | zero =>
      rw [List.flatten_cons, Nat.mul_comm, Nat.mul_zero, Nat.add_zero,
        List.getD_append _ _ _ _ (by rw [hl0]; exact hr)]
      rfl
    | succ b2 =>
      rw [List.flatten_cons]
      have hidx : r + (b2 + 1) * s = l0.length + (r + b2 * s) := by
        rw [hl0]
        ring
      rw [hidx, List.getD_append_right _ _ _ _ (Nat.le_add_right _ _),
        Nat.add_sub_cancel_left]
      rw [show ((l0 :: rest).getD (b2 + 1) []) = rest.getD b2 [] from rfl]
      exact ih (fun l hl => hall l (List.mem_cons_of_mem l0 hl))
        (Nat.lt_of_succ_lt_succ hb) hr

theorem getD_ofFn_lt {γ : Type u} {s : Nat} (f : Fin s → γ) (j : Fin s)
    (d : γ) : (List.ofFn f).getD j.val d = f j := by
  rw [List.getD_eq_getElem _ _ (by simpa using j.isLt)]
  simp

theorem flattenF_getD {s : Nat} (M : Mat s) (i j : Fin s) :
    (flattenF M).getD (i.val + j.val * s) 0 = M i j := by
  rw [flattenF]
  rw [flatten_getD_block (by
      intro l hl
      rw [List.mem_ofFn] at hl
      obtain ⟨k, hk⟩ := hl
      rw [← hk]
      simp)
    (by simpa using j.isLt) i.isLt]
  rw [getD_ofFn_lt _ j []]
  rw [getD_ofFn_lt _ i 0]

theorem flattenC_getD {s : Nat} (M : Mat s) (i j : Fin s) :
    (flattenC M).getD (i.val * s + j.val) 0 = M i j := by
  rw [flattenC, Nat.add_comm]
  rw [flatten_getD_block (by
      intro l hl
      rw [List.mem_ofFn] at hl
      obtain ⟨k, hk⟩ := hl
      rw [← hk]
      simp)
    (by simpa using i.isLt) j.isLt]
  rw [getD_ofFn_lt _ i []]
  rw [getD_ofFn_lt _ j 0]

theorem flattenF_length {s : Nat} (M : Mat s) :
    (flattenF M).length = s * s := by
  rw [flattenF, List.length_flatten, List.map_ofFn]
  rw [show ((fun l : List ℚ => l.length) ∘ fun j : Fin s =>
      List.ofFn fun i : Fin s => M i j) = fun _ : Fin s => s from by
    funext k
    simp]
  rw [List.ofFn_const, List.sum_replicate, smul_eq_mul]

theorem fin_index_lt {s : Nat} (i j : Fin s) : i.val + j.val * s < s * s := by
  have h1 : i.val + j.val * s < (j.val + 1) * s := by
    have := i.isLt
    calc i.val + j.val * s < s + j.val * s := by omega
    _ = (j.val + 1) * s := by ring
  have h2 : (j.val + 1) * s ≤ s * s := Nat.mul_le_mul_right s j.isLt
  omega

theorem getD_map_lt {γ δ : Type u} (g : γ → δ) {l : List γ} {k : Nat}
    (hk : k < l.length) (d : γ) (d2 : δ) :
    (l.map g).getD k d2 = g (l.getD k d) := by
  rw [List.getD_eq_getElem _ _ (by simpa using hk),
    List.getD_eq_getElem _ _ hk]
  simp

/-- One frame written then read through the txt codec: every entry goes
through `txtRoundVal`, at its original position (the two rotations and
the Fortran flatten/reshape cancel). -/
theorem txt_frame_roundtrip {s : Nat} (M : Mat s) :
    txt2npFrame s (np2txtFrameToks M) = fun i j => txtRoundVal (M i j) := by
  funext i j
  rw [txt2npFrame, rot90cw]
  simp only [reshapeF]
  rw [np2txtFrameToks, List.map_map]
  have hidx : j.rev.val + i.val * s < (flattenF (rot90ccw M)).length := by
    rw [flattenF_length]
    exact fin_index_lt j.rev i
  rw [getD_map_lt _ hidx 0 0]
  rw [flattenF_getD (rot90ccw M) j.rev i]
  rw [rot90ccw, Fin.rev_rev]
  rfl

/-- One frame written then read through the csv codec is unchanged. -/
theorem csv_frame_roundtrip {s : Nat} (M : Mat s) :
    reshapeC s (flattenC M) = M := by
  funext i j
  simp only [reshapeC]
  exact flattenC_getD M i j

/-- Counterexample to C8 as stated: a 1-pixel frame with value `123`.
`"%02.2f" % 123.0` is `"123.00"`, dot removal gives `"12300"`, and the
`[:4]` truncation keeps `"1230"`, so `txt2np` reads back `12.30`:
an error of `110.7`, far beyond the codec's 0.01 precision. -/
theorem txt_roundtrip_corrupts_large_values :
    ((txtRoundtrip (s := 1) [fun _ _ => 123] [0]).1.getD 0 (fun _ _ => 0))
        0 0 = 123 / 10
    ∧ ¬ |((txtRoundtrip (s := 1) [fun _ _ => 123] [0]).1.getD 0
        (fun _ _ => 0)) 0 0 - 123| ≤ 1 / 100 := by
  have hval : ((txtRoundtrip (s := 1) [fun _ _ => 123] [0]).1.getD 0
      (fun _ _ => 0)) 0 0 = txtRoundVal 123 := by
    simp only [txtRoundtrip, List.zip_cons_cons, List.zip_nil_left,
      List.map_cons, List.map_nil, List.getD_cons_zero]
    rw [txt_frame_roundtrip]
  have h2 : txtRoundVal 123 = 123 / 10 := by
    rw [txtRoundVal, np2txtTok,
      show ((100 : ℚ) * 123) = ((12300 : ℤ) : ℚ) from by norm_num,
      rhe_intCast,
      show truncTok 12300 = 1230 from by decide]
    norm_num
  refine ⟨by rw [hval, h2], ?_⟩
  rw [hval, h2, abs_of_nonpos (by norm_num)]
  norm_num

/-- C8 (amended): writing a sample through the txt codec and reading it
back reproduces the timestamps exactly and every frame value within the
declared 0.01 precision, PROVIDED each value's rounded hundredths fit
the 4-character token (`-999 ≤ round(100 v) ≤ 9999`, i.e. roughly
`-9.995 ≤ v < 99.995`); the pickle codec (and, on the value level, the
csv codec) round-trips exactly. -/
theorem codec_roundtrip_amended {s : Nat} (frames : List (Mat s))
    (timestamps : List ℚ) (hlen : frames.length = timestamps.length)
    (hrange : ∀ M ∈ frames, ∀ i j,
      -999 ≤ rhe (100 * M i j) ∧ rhe (100 * M i j) ≤ 9999) :
    (txtRoundtrip frames timestamps).2 = timestamps
    ∧ (txtRoundtrip frames timestamps).1.length = frames.length
    ∧ (∀ k < frames.length, ∀ i j,
        |((txtRoundtrip frames timestamps).1.getD k (fun _ _ => 0)) i j -
          (frames.getD k (fun _ _ => 0)) i j| ≤ 1 / 100)
    ∧ pickle2np (write_np2pickle frames timestamps) = (frames, timestamps)
    ∧ csvRoundtrip frames timestamps = (frames, timestamps) := by
  have hzlen : (frames.zip timestamps).length = frames.length := by
    rw [List.length_zip, hlen, Nat.min_self]
  refine ⟨?_, ?_, ?_, rfl, ?_⟩
  · rw [txtRoundtrip]
    exact List.map_snd_zip frames timestamps (le_of_eq hlen.symm)
  · rw [txtRoundtrip]
    simpa using hzlen
  · intro k hk i j
    have hkz : k < (frames.zip timestamps).length := by rw [hzlen]; exact hk
    have hgetD : (txtRoundtrip frames timestamps).1.getD k (fun _ _ => 0) =
        txt2npFrame s (np2txtFrameToks ((frames.zip timestamps).getD k
          (fun _ _ => 0, 0)).1) := by
      rw [txtRoundtrip]
      exact getD_map_lt _ hkz (fun _ _ => 0, 0) (fun _ _ => 0)
    have hpair : (frames.zip timestamps).getD k (fun _ _ => 0, 0) =
        (frames.getD k (fun _ _ => 0), timestamps.getD k 0) := by
      rw [List.getD_eq_getElem _ _ hkz, List.getElem_zip,
        List.getD_eq_getElem _ _ hk,
        List.getD_eq_getElem _ _ (by rw [← hlen]; exact hk)]
    rw [hgetD, hpair, txt_frame_roundtrip]
    have hmem : frames.getD k (fun _ _ => 0) ∈ frames := by
      rw [List.getD_eq_getElem _ _ hk]
      exact List.getElem_mem hk
    obtain ⟨hr1, hr2⟩ := hrange _ hmem i j
    exact txtRoundVal_close hr1 hr2
  · rw [csvRoundtrip]
    simp only [Prod.mk.injEq]
    constructor
    · apply List.ext_getElem
      · simpa using hzlen
      · intro k h1 h2
        have hkz : k < (frames.zip timestamps).length := by
          simpa using h1
        rw [List.getElem_map, List.getElem_zip, csv_frame_roundtrip]
    · exact List.map_snd_zip frames timestamps (le_of_eq hlen.symm)

/-- Witness for the amended C8: a single 1×1 frame with value 1 and one
timestamp. -/
theorem codec_roundtrip_amended_witness :
    (([fun _ _ => 1] : List (Mat 1)).length = ([2] : List ℚ).length
      ∧ ∀ M ∈ ([fun _ _ => 1] : List (Mat 1)), ∀ i j,
        -999 ≤ rhe (100 * M i j) ∧ rhe (100 * M i j) ≤ 9999)
    ∧ ((txtRoundtrip ([fun _ _ => 1] : List (Mat 1)) [2]).2 = [2]
      ∧ (txtRoundtrip ([fun _ _ => 1] : List (Mat 1)) [2]).1.length =
          ([fun _ _ => 1] : List (Mat 1)).length
      ∧ (∀ k < ([fun _ _ => 1] : List (Mat 1)).length, ∀ i j,
          |((txtRoundtrip ([fun _ _ => 1] : List (Mat 1)) [2]).1.getD k
              (fun _ _ => 0)) i j -
            (([fun _ _ => 1] : List (Mat 1)).getD k (fun _ _ => 0)) i j| ≤
              1 / 100)
      ∧ pickle2np (write_np2pickle ([fun _ _ => 1] : List (Mat 1)) [2]) =
          ([fun _ _ => 1], [2])
      ∧ csvRoundtrip ([fun _ _ => 1] : List (Mat 1)) [2] =
          ([fun _ _ => 1], [2])) :=
  have hrange : ∀ M ∈ ([fun _ _ => 1] : List (Mat 1)), ∀ i j,
      -999 ≤ rhe (100 * M i j) ∧ rhe (100 * M i j) ≤ 9999 := by
    intro M hM i j
    rw [List.mem_singleton] at hM
    subst hM
    constructor <;>
      rw [show (100 * (fun _ _ => (1 : ℚ)) i j) = ((100 : ℤ) : ℚ) from by
        norm_num, rhe_intCast] <;> decide
  ⟨⟨rfl, hrange⟩,
    codec_roundtrip_amended [fun _ _ => 1] [2] rfl hrange⟩

/-- Witness for C6: two views, one complete prefix `a`, an empty (and
hence successfully read) labels file with no entry for `a`. -/
theorem dataset_make_all_filtered_fails_witness :
    (remove_missing_views ([['0'], ['1']] : List PyStr).length
        [['a'], ['a']] [['a']] = some [['a']]
      ∧ read_labels_file ([] : List (PyStr × PyVal)) = some []
      ∧ filterLabelled [] [['a']] = some [])
    ∧ tpaDatasetMake [['0'], ['1']] ['t', 'x', 't'] ['p'] ['d']
        [['a'], ['a']] [['a']] [] = some ⟨false, [], false, false⟩ :=
  ⟨⟨by decide, by decide, by decide⟩,
    dataset_make_all_filtered_fails [['0'], ['1']] ['t', 'x', 't'] ['p'] ['d']
      [['a'], ['a']] [['a']] [] [] [['a']] (by decide) (by decide) (by decide)⟩

end HTPA
